import Mathlib

/-!
Verification of the babyjubjub-ecdsa core (`src/lib/babyJubjub`-adjacent
module holding `computeMerkleRoot`, `generateMerkleProof` and
`getPublicInputsFromSignature`) against its natural-language specification.

The Merkle accumulator is embedded over an arbitrary hash oracle
`h : Nat → Nat → Nat` (the spec treats the Poseidon hash as an opaque
deterministic binary oracle over field elements, composed with its
canonicalization step) and an arbitrary leaf hash
`leafHash : EdwardsPoint → Nat` (the source's `hashEdwardsPublicKey`, which
lives in a utilities module outside the analysed sources).  JavaScript array
semantics are modelled explicitly: an out-of-bounds read yields `none`
(JS `undefined`), `%` is `Int.tmod` (sign of the dividend), and
`Math.floor(x / 2)` on integers is `Int.fdiv`.
-/

namespace BabyJubjubEcdsa

/-- A point on the twisted-Edwards form of Baby Jubjub, coordinates as
base-field naturals (`EdwardsPoint` of `babyJubjub.ts`; only its coordinate
record shape matters here). -/
structure EdwardsPoint where
  x : Nat
  y : Nat
deriving DecidableEq

/-- A point on the birationally-equivalent short-Weierstrass curve
(`WeierstrassPoint` of `babyJubjub.ts`), coordinate record shape only. -/
structure WeierstrassPoint where
  x : Nat
  y : Nat
deriving DecidableEq

/-- JavaScript array read `l[i]`: `none` models `undefined` for a negative or
out-of-bounds index. -/
def jsGet (l : List Nat) (i : Int) : Option Nat :=
  if 0 ≤ i ∧ i < (l.length : Int) then some (l.getD i.toNat 0) else none

/-- The `MerkleProof` record of `types.ts`.  `root` is the JS read
`prevLayer[0]` of the final layer (hence an `Option`), `pathIndices` are the
JS remainders `index % 2` (hence `Int`), and each sibling is a JS array read
or a zero constant (hence `Option Nat`). -/
structure MerkleProof where
  root : Option Nat
  pathIndices : List Int
  siblings : List (Option Nat)
deriving DecidableEq

/-- The source's `ZEROS` table: precomputed "hash of zeros" constants, one per
layer of the depth-8 tree, transcribed verbatim from `generateMerkleProof`. -/
def ZEROS : List Nat :=
  [0,
   14744269619966411208579211824598458697587494354926760081771325075741142829156,
   7423237065226347324353380772367382631490014989348495481811164164159255474657,
   11286972368698509976183087595462810875513684078608517520839298933882497716792,
   3607627140608796879659380071776844901612302623152076817094415224584923813162,
   19712377064642672829441595136074946683621277828620209496774504837737984048981,
   20775607673010627194014556968476266066927294572720319469184847051418138353016,
   3396914609616007258851405644437304192397291162432396347162513310381425243293]

/-- The sibling recorded by the source at one level: `siblingIndex` is the
paired position (`index + 1` when `index % 2 === 0`, else `index - 1`); the
sibling is the level's zero constant exactly when
`siblingIndex === prevLayer.length`, and otherwise the JS array read (which is
`undefined` out of bounds). -/
def siblingOf (z : Nat) (layer : List Nat) (idx : Int) : Option Nat :=
  let sibIdx := if idx.tmod 2 = 0 then idx + 1 else idx - 1
  if sibIdx = (layer.length : Int) then some z else jsGet layer sibIdx

/-- The source's inner `j` loop: hash consecutive pairs of the current layer,
filling a missing second element of a final odd pair with the level's zero
constant. -/
def pairUp (h : Nat → Nat → Nat) (z : Nat) : List Nat → List Nat
  | [] => []
  | [a] => [h a z]
  | a :: b :: rest => h a b :: pairUp h z rest

/-- State produced by running the level loop to completion: final layer,
final index, and the accumulated `pathIndices`/`siblings` (level 0 first). -/
structure LevelsOut where
  layer : List Nat
  idx : Int
  pathIndices : List Int
  siblings : List (Option Nat)

/-- The source's level loop `for (let i = 0; i < TREE_DEPTH; i++)`, one zero
constant per level: record `index % 2` and the sibling for the current index,
halve the index with `Math.floor` semantics, and pair up the layer. -/
def buildLevels (h : Nat → Nat → Nat) : List Nat → List Nat → Int → LevelsOut
  | [], layer, idx => ⟨layer, idx, [], []⟩
  | z :: rest, layer, idx =>
    let r := buildLevels h rest (pairUp h z layer) (idx.fdiv 2)
    ⟨r.layer, r.idx, idx.tmod 2 :: r.pathIndices, siblingOf z layer idx :: r.siblings⟩

/-- `generateMerkleProof(pubKeys, index, hashFn)`: hash every public key into a
leaf (order preserved), run the 8-level loop, and return
`{ root: prevLayer[0], pathIndices, siblings }`. -/
def generateMerkleProof (h : Nat → Nat → Nat) (leafHash : EdwardsPoint → Nat)
    (pubKeys : List EdwardsPoint) (index : Int) : MerkleProof :=
  let leaves := pubKeys.map leafHash
  let r := buildLevels h ZEROS leaves index
  ⟨jsGet r.layer 0, r.pathIndices, r.siblings⟩

/-- `computeMerkleRoot(pubKeys, hashFn)`: the root of the proof generated for
index 0. -/
def computeMerkleRoot (h : Nat → Nat → Nat) (leafHash : EdwardsPoint → Nat)
    (pubKeys : List EdwardsPoint) : Option Nat :=
  (generateMerkleProof h leafHash pubKeys 0).root

/-- One step of the proof-checking fold: hash the running value with the
sibling, running value on the left when the path bit is 0, on the right when
it is 1; absent values poison the fold. -/
def stepUp (h : Nat → Nat → Nat) (acc sib : Option Nat) (b : Int) : Option Nat :=
  match acc, sib with
  | some a, some s => some (if b = 0 then h a s else h s a)
  | _, _ => none

/-- Recompute the root from a starting leaf by folding the proof's
`siblings`/`pathIndices` upward. -/
def recompute (h : Nat → Nat → Nat) : Option Nat → List (Option Nat) → List Int → Option Nat
  | acc, s :: ss, b :: bs => recompute h (stepUp h acc s b) ss bs
  | acc, _, _ => acc

theorem pairUp_length (h : Nat → Nat → Nat) (z : Nat) :
    ∀ l : List Nat, (pairUp h z l).length = (l.length + 1) / 2
  | [] => by simp [pairUp]
  | [_] => by simp [pairUp]
  | _ :: _ :: rest => by
    simp [pairUp, pairUp_length h z rest]
    omega

theorem pairUp_getD (h : Nat → Nat → Nat) (z : Nat) :
    ∀ (l : List Nat) (k : Nat), 2 * k < l.length →
      (pairUp h z l).getD k 0
        = if 2 * k + 1 < l.length then h (l.getD (2 * k) 0) (l.getD (2 * k + 1) 0)
          else h (l.getD (2 * k) 0) z
  | [], k, hk => by simp at hk
  | [a], k, hk => by
    have hk0 : k = 0 := by simp at hk; omega
    subst hk0
    simp [pairUp]
  | a :: b :: rest, 0, _ => by simp [pairUp]
  | a :: b :: rest, k + 1, hk => by
    have hk' : 2 * k < rest.length := by simp at hk; omega
    have e1 : 2 * (k + 1) = 2 * k + 1 + 1 := by ring
    have hlen : (a :: b :: rest).length = rest.length + 2 := by simp
    rw [e1]
    simp only [pairUp, List.getD_cons_succ, pairUp_getD h z rest k hk', hlen]
    have hiff : 2 * k + 1 + 1 + 1 < rest.length + 2 ↔ 2 * k + 1 < rest.length := by omega
    by_cases hcond : 2 * k + 1 < rest.length
    · rw [if_pos hcond, if_pos (hiff.mpr hcond)]
    · rw [if_neg hcond, if_neg (fun hc => hcond (hiff.mp hc))]

theorem buildLevels_layer_const (h : Nat → Nat → Nat) :
    ∀ (zs layer : List Nat) (i j : Int),
      (buildLevels h zs layer i).layer = (buildLevels h zs layer j).layer
  | [], _, _, _ => rfl
  | z :: rest, layer, i, j => buildLevels_layer_const h rest (pairUp h z layer) (i.fdiv 2) (j.fdiv 2)

theorem buildLevels_lengths (h : Nat → Nat → Nat) :
    ∀ (zs layer : List Nat) (i : Int),
      (buildLevels h zs layer i).pathIndices.length = zs.length
      ∧ (buildLevels h zs layer i).siblings.length = zs.length
  | [], _, _ => ⟨rfl, rfl⟩
  | z :: rest, layer, i => by
    have ih := buildLevels_lengths h rest (pairUp h z layer) (i.fdiv 2)
    simp [buildLevels, ih.1, ih.2]

theorem natCast_tmod_two (n : Nat) : ((n : Int)).tmod 2 = ((n % 2 : Nat) : Int) := rfl

theorem natCast_fdiv_two (n : Nat) : ((n : Int)).fdiv 2 = ((n / 2 : Nat) : Int) := by
  rw [Int.fdiv_eq_ediv] <;> omega

theorem jsGet_natCast (l : List Nat) (n : Nat) (hn : n < l.length) :
    jsGet l (n : Int) = some (l.getD n 0) := by
  rw [jsGet, if_pos ⟨by positivity, by exact_mod_cast hn⟩]
  simp

theorem siblingOf_even (z : Nat) (layer : List Nat) (n : Nat) (hmod : n % 2 = 0) :
    siblingOf z layer (n : Int)
      = if n + 1 = layer.length then some z else jsGet layer ((n + 1 : Nat) : Int) := by
  have h1 : ((n : Int)).tmod 2 = 0 := by
    rw [natCast_tmod_two, hmod]
    rfl
  have harg : ((n : Int)) + 1 = ((n + 1 : Nat) : Int) := by push_cast; ring
  simp only [siblingOf, h1, if_pos, harg]
  by_cases hc : n + 1 = layer.length
  · rw [if_pos (by exact_mod_cast hc), if_pos hc]
  · rw [if_neg (by exact_mod_cast hc), if_neg hc]

theorem siblingOf_odd (z : Nat) (layer : List Nat) (n : Nat) (hmod : n % 2 = 1)
    (hn : n < layer.length) :
    siblingOf z layer (n : Int) = some (layer.getD (n - 1) 0) := by
  have h1 : ((n : Int)).tmod 2 = 1 := by
    rw [natCast_tmod_two, hmod]
    rfl
  have harg : ((n : Int)) - 1 = ((n - 1 : Nat) : Int) := by omega
  have hne2 : ¬ ((n - 1 : Nat) : Int) = (layer.length : Int) := by omega
  simp only [siblingOf, h1, harg]
  rw [if_neg (show ¬(1 : Int) = 0 by decide), if_neg hne2,
    jsGet_natCast layer (n - 1) (by omega)]

/-- Level-loop invariant: for a valid index into a layer that fits in the
remaining levels, folding the recorded `siblings`/`pathIndices` from the
indexed layer element reproduces the single element of the final layer. -/
theorem buildLevels_valid (h : Nat → Nat → Nat) :
    ∀ (zs layer : List Nat) (n : Nat), n < layer.length → layer.length ≤ 2 ^ zs.length →
      recompute h (some (layer.getD n 0))
          (buildLevels h zs layer (n : Int)).siblings (buildLevels h zs layer (n : Int)).pathIndices
        = some ((buildLevels h zs layer (n : Int)).layer.getD 0 0)
      ∧ (buildLevels h zs layer (n : Int)).layer.length = 1
  | [], layer, n, hn, hlen => by
    have hl1 : layer.length = 1 := by
      simp only [List.length_nil, pow_zero] at hlen
      omega
    have hn0 : n = 0 := by omega
    subst hn0
    exact ⟨rfl, hl1⟩
  | z :: rest, layer, n, hn, hlen => by
    have hpow : 2 ^ (z :: rest).length = 2 * 2 ^ rest.length := by
      simp [pow_succ]
      ring
    have hn' : n / 2 < (pairUp h z layer).length := by
      rw [pairUp_length]
      omega
    have hlen' : (pairUp h z layer).length ≤ 2 ^ rest.length := by
      rw [pairUp_length]
      rw [hpow] at hlen
      omega
    have ih := buildLevels_valid h rest (pairUp h z layer) (n / 2) hn' hlen'
    have hstep : stepUp h (some (layer.getD n 0)) (siblingOf z layer (n : Int)) ((n : Int).tmod 2)
        = some ((pairUp h z layer).getD (n / 2) 0) := by
      rcases Nat.mod_two_eq_zero_or_one n with hmod | hmod
      · have h2k : 2 * (n / 2) = n := by omega
        rw [pairUp_getD h z layer (n / 2) (by omega), h2k]
        by_cases hc : n + 1 = layer.length
        · rw [siblingOf_even z layer n hmod, if_pos hc, if_neg (by omega)]
          simp [stepUp, natCast_tmod_two, hmod]
        · have hlt : n + 1 < layer.length := by omega
          rw [siblingOf_even z layer n hmod, if_neg hc, jsGet_natCast layer (n + 1) hlt,
            if_pos hlt]
          simp [stepUp, natCast_tmod_two, hmod]
      · have h2k1 : 2 * (n / 2) + 1 = n := by omega
        have h2k : 2 * (n / 2) = n - 1 := by omega
        rw [pairUp_getD h z layer (n / 2) (by omega), h2k1, h2k, if_pos hn,
          siblingOf_odd z layer n hmod hn]
        simp [stepUp, natCast_tmod_two, hmod]
    have hunfold : buildLevels h (z :: rest) layer (n : Int)
        = ⟨(buildLevels h rest (pairUp h z layer) ((n : Int).fdiv 2)).layer,
           (buildLevels h rest (pairUp h z layer) ((n : Int).fdiv 2)).idx,
           (n : Int).tmod 2 :: (buildLevels h rest (pairUp h z layer) ((n : Int).fdiv 2)).pathIndices,
           siblingOf z layer (n : Int)
             :: (buildLevels h rest (pairUp h z layer) ((n : Int).fdiv 2)).siblings⟩ := rfl
    rw [hunfold]
    simp only [recompute, natCast_fdiv_two]
    constructor
    · rw [hstep]
      exact ih.1
    · exact ih.2

/-- A concrete stand-in hash oracle for evaluating witnesses. -/
def testHash (a b : Nat) : Nat := 2 * a + 3 * b + 1

/-- A concrete stand-in leaf hash for evaluating witnesses. -/
def testLeafHash (p : EdwardsPoint) : Nat := 5 * p.x + p.y

/-- C1: for every key list of size 1 to 256 and every index `0 ≤ index < len`,
folding the returned `siblings`/`pathIndices` upward from the hashed leaf at
`index` (running value on the left when the path bit is 0, on the right when
it is 1) reproduces the returned `root`, which is a present field element. -/
theorem generateMerkleProof_fold_eq_root (h : Nat → Nat → Nat)
    (leafHash : EdwardsPoint → Nat) (pubKeys : List EdwardsPoint) (index : Int)
    (hlo : 1 ≤ pubKeys.length) (hhi : pubKeys.length ≤ 256)
    (h0 : 0 ≤ index) (hidx : index < (pubKeys.length : Int)) :
    recompute h (jsGet (pubKeys.map leafHash) index)
        (generateMerkleProof h leafHash pubKeys index).siblings
        (generateMerkleProof h leafHash pubKeys index).pathIndices
      = (generateMerkleProof h leafHash pubKeys index).root
    ∧ (generateMerkleProof h leafHash pubKeys index).root.isSome = true := by
  obtain ⟨n, rfl⟩ : ∃ m : Nat, index = (m : Int) :=
    ⟨index.toNat, (Int.toNat_of_nonneg h0).symm⟩
  have hlen : (pubKeys.map leafHash).length = pubKeys.length := by simp
  have hn : n < (pubKeys.map leafHash).length := by
    rw [hlen]
    exact_mod_cast hidx
  have h256 : (2 : Nat) ^ ZEROS.length = 256 := rfl
  have hfit : (pubKeys.map leafHash).length ≤ 2 ^ ZEROS.length := by
    rw [hlen, h256]
    exact hhi
  have hv := buildLevels_valid h ZEROS (pubKeys.map leafHash) n hn hfit
  have hroot : jsGet (buildLevels h ZEROS (pubKeys.map leafHash) (n : Int)).layer 0
      = some ((buildLevels h ZEROS (pubKeys.map leafHash) (n : Int)).layer.getD 0 0) := by
    have h01 : 0 < (buildLevels h ZEROS (pubKeys.map leafHash) (n : Int)).layer.length := by
      omega
    exact jsGet_natCast (buildLevels h ZEROS (pubKeys.map leafHash) (n : Int)).layer 0 h01
  refine ⟨?_, ?_⟩
  · show recompute h (jsGet (pubKeys.map leafHash) (n : Int))
        (buildLevels h ZEROS (pubKeys.map leafHash) (n : Int)).siblings
        (buildLevels h ZEROS (pubKeys.map leafHash) (n : Int)).pathIndices
      = jsGet (buildLevels h ZEROS (pubKeys.map leafHash) (n : Int)).layer 0
    rw [jsGet_natCast (pubKeys.map leafHash) n hn, hroot]
    exact hv.1
  · show (jsGet (buildLevels h ZEROS (pubKeys.map leafHash) (n : Int)).layer 0).isSome = true
    rw [hroot]
    rfl

/-- Witness for C1: a concrete three-key set at index 1. -/
theorem generateMerkleProof_fold_eq_root_witness :
    (1 ≤ ([⟨1, 2⟩, ⟨3, 4⟩, ⟨5, 6⟩] : List EdwardsPoint).length
      ∧ ([⟨1, 2⟩, ⟨3, 4⟩, ⟨5, 6⟩] : List EdwardsPoint).length ≤ 256
      ∧ (0 : Int) ≤ 1
      ∧ (1 : Int) < ((([⟨1, 2⟩, ⟨3, 4⟩, ⟨5, 6⟩] : List EdwardsPoint).length : Nat) : Int))
    ∧ (recompute testHash
          (jsGet (([⟨1, 2⟩, ⟨3, 4⟩, ⟨5, 6⟩] : List EdwardsPoint).map testLeafHash) 1)
          (generateMerkleProof testHash testLeafHash [⟨1, 2⟩, ⟨3, 4⟩, ⟨5, 6⟩] 1).siblings
          (generateMerkleProof testHash testLeafHash [⟨1, 2⟩, ⟨3, 4⟩, ⟨5, 6⟩] 1).pathIndices
        = (generateMerkleProof testHash testLeafHash [⟨1, 2⟩, ⟨3, 4⟩, ⟨5, 6⟩] 1).root
        ∧ (generateMerkleProof testHash testLeafHash
            [⟨1, 2⟩, ⟨3, 4⟩, ⟨5, 6⟩] 1).root.isSome = true) :=
  ⟨⟨by decide, by decide, by decide, by decide⟩,
    generateMerkleProof_fold_eq_root testHash testLeafHash [⟨1, 2⟩, ⟨3, 4⟩, ⟨5, 6⟩] 1
      (by decide) (by decide) (by decide) (by decide)⟩

/-- C6: for a fixed key list any two valid indices yield the same root, and
`computeMerkleRoot` is the root of the proof generated for index 0. -/
theorem merkleRoot_index_invariant (h : Nat → Nat → Nat) (leafHash : EdwardsPoint → Nat)
    (pubKeys : List EdwardsPoint) (i j : Int)
    (hi0 : 0 ≤ i) (hi : i < (pubKeys.length : Int))
    (hj0 : 0 ≤ j) (hj : j < (pubKeys.length : Int)) (hij : i ≠ j) :
    (generateMerkleProof h leafHash pubKeys i).root
      = (generateMerkleProof h leafHash pubKeys j).root
    ∧ computeMerkleRoot h leafHash pubKeys = (generateMerkleProof h leafHash pubKeys 0).root := by
  refine ⟨?_, rfl⟩
  show jsGet (buildLevels h ZEROS (pubKeys.map leafHash) i).layer 0
      = jsGet (buildLevels h ZEROS (pubKeys.map leafHash) j).layer 0
  rw [buildLevels_layer_const h ZEROS (pubKeys.map leafHash) i j]

/-- Witness for C6: two keys, indices 0 and 1. -/
theorem merkleRoot_index_invariant_witness :
    ((0 : Int) ≤ 0 ∧ (0 : Int) < ((([⟨1, 2⟩, ⟨3, 4⟩] : List EdwardsPoint).length : Nat) : Int)
      ∧ (0 : Int) ≤ 1 ∧ (1 : Int) < ((([⟨1, 2⟩, ⟨3, 4⟩] : List EdwardsPoint).length : Nat) : Int)
      ∧ (0 : Int) ≠ 1)
    ∧ ((generateMerkleProof testHash testLeafHash [⟨1, 2⟩, ⟨3, 4⟩] 0).root
        = (generateMerkleProof testHash testLeafHash [⟨1, 2⟩, ⟨3, 4⟩] 1).root
      ∧ computeMerkleRoot testHash testLeafHash [⟨1, 2⟩, ⟨3, 4⟩]
        = (generateMerkleProof testHash testLeafHash [⟨1, 2⟩, ⟨3, 4⟩] 0).root) :=
  ⟨⟨by decide, by decide, by decide, by decide, by decide⟩,
    merkleRoot_index_invariant testHash testLeafHash [⟨1, 2⟩, ⟨3, 4⟩] 0 1
      (by decide) (by decide) (by decide) (by decide) (by decide)⟩

/-- C8: whatever the key list and index, the returned proof's `pathIndices`
and `siblings` both have length exactly 8 (the fixed tree depth). -/
theorem generateMerkleProof_lengths (h : Nat → Nat → Nat) (leafHash : EdwardsPoint → Nat)
    (pubKeys : List EdwardsPoint) (index : Int) :
    (generateMerkleProof h leafHash pubKeys index).pathIndices.length = 8
    ∧ (generateMerkleProof h leafHash pubKeys index).siblings.length = 8 := by
  have hl := buildLevels_lengths h ZEROS (pubKeys.map leafHash) index
  exact ⟨hl.1, hl.2⟩

/-- C5 evidence: the source performs no bounds check — for a single-key set,
`generateMerkleProof(keys, 1)` (index = len) and `generateMerkleProof(keys, -1)`
both return complete `MerkleProof` records rather than raising any error; the
invalid index only distorts the recorded path (all siblings `undefined` for
index `-1`) while a root is still produced. -/
theorem generateMerkleProof_out_of_range_returns (h : Nat → Nat → Nat)
    (leafHash : EdwardsPoint → Nat) (k : EdwardsPoint) :
    (generateMerkleProof h leafHash [k] 1).pathIndices = 1 :: List.replicate 7 0
    ∧ (generateMerkleProof h leafHash [k] 1).root
        = (generateMerkleProof h leafHash [k] 0).root
    ∧ (generateMerkleProof h leafHash [k] 1).root.isSome = true
    ∧ (generateMerkleProof h leafHash [k] (-1)).pathIndices = List.replicate 8 (-1)
    ∧ (generateMerkleProof h leafHash [k] (-1)).siblings = List.replicate 8 none
    ∧ (generateMerkleProof h leafHash [k] (-1)).root
        = (generateMerkleProof h leafHash [k] 0).root := by
  refine ⟨?_, ?_, ?_, ?_, ?_, ?_⟩ <;> rfl

/-- C10: for the empty key list every layer is empty, so the returned record
has an absent (`undefined`) root and eight absent siblings — neither a field
element nor a raised error. -/
theorem generateMerkleProof_empty (h : Nat → Nat → Nat) (leafHash : EdwardsPoint → Nat) :
    generateMerkleProof h leafHash [] 0
      = ⟨none, List.replicate 8 0, List.replicate 8 none⟩ := rfl

/-! ## Signature input deriver (`getPublicInputsFromSignature`)

The finite-field and elliptic-curve collaborators (`babyjubjub.Fb`,
`babyjubjub.Fs`, `babyjubjub.ec`, `WeierstrassPoint.fromEllipticPoint`,
`toEdwards`) live in modules that are not part of the analysed sources; the
spec treats them as consumed capabilities (§6).  The two finite fields are
modelled concretely from the spec and the repository's sage script (known
moduli); the elliptic-curve group and the Weierstrass↔Edwards conversion are
abstract capability records, exactly the spec's `EllipticCurveGroup` and
`CurvePointModel` interfaces. -/

/-- The Baby Jubjub base-field modulus `p` (`babyjubjub.Fb.p`), from the
repository's `bjj-mont-to-sw.sage`. -/
def baseFieldP : Nat :=
  21888242871839275222246405745257275088548364400416034343698204186575808495617

/-- Modelled from the spec / the sage script: the prime order `n` of the Baby
Jubjub prime-order subgroup (`babyjubjub.Fs.p`); the sage script validates the
full curve order `8 · n`. -/
def scalarFieldN : Nat :=
  2736030358979909402780800718157159386076813972158567259200215660948447373041

/-- Modelled from the spec: the curve's cofactor `h` (`babyjubjub.cofactor`),
a known constant of the curve family; the sage-validated full order is
`cofactor · scalarFieldN`. -/
def cofactor : Nat := 8

theorem cofactor_mul_scalarFieldN :
    cofactor * scalarFieldN
      = 21888242871839275222246405745257275088614511777268538073601725287587578984328 := by
  decide

/-- Modelled from the spec: ffjavascript `ZqField` addition in the base field
(`Fb.add`). -/
def fbAdd (a b : Nat) : Nat := (a + b) % baseFieldP

/-- Modelled from the spec: ffjavascript `ZqField` multiplication in the base
field (`Fb.mul`). -/
def fbMul (a b : Nat) : Nat := a * b % baseFieldP

/-- Modelled from the spec: ffjavascript `ZqField` multiplication in the order
field (`Fs.mul`). -/
def fsMul (a b : Nat) : Nat := a * b % scalarFieldN

/-- Modelled from the spec: ffjavascript `ZqField` negation in the order field
(`Fs.neg`). -/
def fsNeg (a : Nat) : Nat := (scalarFieldN - a % scalarFieldN) % scalarFieldN

/-- Fuelled square-and-multiply modular exponentiation (kernel-reducible). -/
def powModAux (m : Nat) : Nat → Nat → Nat → Nat
  | _, _, 0 => 1 % m
  | b, e, fuel + 1 =>
    if e = 0 then 1 % m
    else
      let r := powModAux m (b * b % m) (e / 2) fuel
      if e % 2 = 1 then r * b % m else r

/-- `b ^ e mod m` with enough fuel for 300-bit exponents. -/
def powMod (m b e : Nat) : Nat := powModAux m (b % m) e 300

/-- Modelled from the spec: ffjavascript `ZqField` modular inversion in the
order field (`Fs.inv`).  Inverting zero is an arithmetic error (`none`, the
spec's "inversion of zero" row); for a nonzero argument it returns the modular
inverse, realized as `a ^ (n - 2) mod n` for the prime `n`. -/
def fsInv (a : Nat) : Option Nat :=
  if a % scalarFieldN = 0 then none
  else some (powMod scalarFieldN a (scalarFieldN - 2))

/-- `WeierstrassPoint.equals`: exact coordinate comparison. -/
def wEquals (a b : WeierstrassPoint) : Bool := a.x == b.x && a.y == b.y

/-- Modelled from the spec: the consumed `EllipticCurveGroup` and
`CurvePointModel` capabilities (`babyjubjub.ec.curve` and the point classes,
not part of the analysed sources).  `pointFromX x parity` is `none` when no
curve point exists with that x-coordinate (the source's caught throw);
`toW` is `WeierstrassPoint.fromEllipticPoint`; `toEdwards` is the birational
conversion used on the returned points. -/
structure CurveOps (P : Type) where
  pointFromX : Nat → Nat → Option P
  mul : P → Nat → P
  add : P → P → P
  g : P
  toW : P → WeierstrassPoint
  toEdwards : WeierstrassPoint → EdwardsPoint

/-- The `Signature` record of `types.ts`. -/
structure Signature where
  r : Nat
  s : Nat
deriving DecidableEq

/-- The two ways `getPublicInputsFromSignature` can fail: exhausting all
candidates (its own thrown error) or the propagated order-field
division-by-zero. -/
inductive DeriveError where
  | noValidCandidateFound
  | divisionByZero
deriving DecidableEq

/-- The returned public inputs `{R, T, U}` in Edwards form. -/
structure PublicInputs where
  R : EdwardsPoint
  T : EdwardsPoint
  U : EdwardsPoint
deriving DecidableEq

/-- The body of the source's candidate loop once the candidate x is fixed:
`none` is the caught `pointFromX` failure or a failed equality check (both
continue with the next candidate); `some r` finishes the whole loop, either
with the propagated inversion error or with a successful return. -/
def candidateStep {P : Type} (ops : CurveOps P) (sig : Signature) (msgHash : Nat)
    (pubKey : WeierstrassPoint) (x parity : Nat) :
    Option (Except DeriveError PublicInputs) :=
  match fsInv x with
  | none => some (.error .divisionByZero)
  | some rInv =>
    match ops.pointFromX x parity with
    | none => none
    | some ecR =>
      let ecT := ops.mul ecR rInv
      let T := ops.toW ecT
      let rInvm := fsNeg (fsMul rInv msgHash)
      let ecU := ops.mul ops.g rInvm
      let U := ops.toW ecU
      let sT := ops.mul ecT sig.s
      let ecsTU := ops.add sT ecU
      let sTU := ops.toW ecsTU
      if wEquals sTU pubKey then
        some (.ok ⟨ops.toEdwards (ops.toW ecR), ops.toEdwards T, ops.toEdwards U⟩)
      else none

/-- The source's nested loops flattened into a candidate list: each `(i,
parity)` is evaluated in order, a `none` step skips to the next candidate, and
exhaustion throws `NoValidCandidateFound`.  The candidate x is computed as in
the source: `Fb.add(sig.r, Fb.mul(i, Fs.p))`. -/
def deriveLoop {P : Type} (ops : CurveOps P) (sig : Signature) (msgHash : Nat)
    (pubKey : WeierstrassPoint) : List (Nat × Nat) → Except DeriveError PublicInputs
  | [] => .error .noValidCandidateFound
  | c :: rest =>
    match candidateStep ops sig msgHash pubKey (fbAdd sig.r (fbMul c.1 scalarFieldN)) c.2 with
    | some r => r
    | none => deriveLoop ops sig msgHash pubKey rest

/-- `getPublicInputsFromSignature(sig, msgHash, pubKey)`: outer loop
`i ∈ [0, cofactor)`, inner loop parity `0` then `1`. -/
def getPublicInputsFromSignature {P : Type} (ops : CurveOps P) (sig : Signature)
    (msgHash : Nat) (pubKey : WeierstrassPoint) : Except DeriveError PublicInputs :=
  deriveLoop ops sig msgHash pubKey ((List.range cofactor).flatMap fun i => [(i, 0), (i, 1)])

/-- Whether a candidate `(i, parity)` satisfies the verification check
`s·T + U == pubKey` (false as well when no curve point exists at that x and
parity, or when the inversion fails). -/
def candidateMatches {P : Type} (ops : CurveOps P) (sig : Signature) (msgHash : Nat)
    (pubKey : WeierstrassPoint) (c : Nat × Nat) : Bool :=
  match fsInv (fbAdd sig.r (fbMul c.1 scalarFieldN)),
      ops.pointFromX (fbAdd sig.r (fbMul c.1 scalarFieldN)) c.2 with
  | some rInv, some ecR =>
    wEquals (ops.toW (ops.add (ops.mul (ops.mul ecR rInv) sig.s)
      (ops.mul ops.g (fsNeg (fsMul rInv msgHash))))) pubKey
  | _, _ => false

/-- Modelled from the spec (§4.3), for the enumeration-order refinement claim:
the spec-side loop computes each candidate x directly as
`(r + i·n) mod base-field prime`. -/
def specLoop {P : Type} (ops : CurveOps P) (sig : Signature) (msgHash : Nat)
    (pubKey : WeierstrassPoint) : List (Nat × Nat) → Except DeriveError PublicInputs
  | [] => .error .noValidCandidateFound
  | c :: rest =>
    match candidateStep ops sig msgHash pubKey ((sig.r + c.1 * scalarFieldN) % baseFieldP) c.2 with
    | some r => r
    | none => specLoop ops sig msgHash pubKey rest

/-- Modelled from the spec (§4.3): the candidate order written out explicitly —
outer `i` ascending `0..7` (cofactor 8), inner parity `0` then `1` — with the
first matching candidate returned. -/
def deriveInputsSpecOrder {P : Type} (ops : CurveOps P) (sig : Signature) (msgHash : Nat)
    (pubKey : WeierstrassPoint) : Except DeriveError PublicInputs :=
  specLoop ops sig msgHash pubKey
    [(0, 0), (0, 1), (1, 0), (1, 1), (2, 0), (2, 1), (3, 0), (3, 1),
     (4, 0), (4, 1), (5, 0), (5, 1), (6, 0), (6, 1), (7, 0), (7, 1)]

theorem candidate_x_eq (r i : Nat) :
    fbAdd r (fbMul i scalarFieldN) = (r + i * scalarFieldN) % baseFieldP := by
  simp only [fbAdd, fbMul]
  conv_rhs => rw [Nat.add_mod]
  rw [Nat.add_mod r (i * scalarFieldN % baseFieldP) baseFieldP,
    Nat.mod_mod_of_dvd _ dvd_rfl]

theorem deriveLoop_eq_specLoop {P : Type} (ops : CurveOps P) (sig : Signature)
    (msgHash : Nat) (pubKey : WeierstrassPoint) :
    ∀ l : List (Nat × Nat),
      deriveLoop ops sig msgHash pubKey l = specLoop ops sig msgHash pubKey l
  | [] => rfl
  | c :: rest => by
    rw [deriveLoop, specLoop, candidate_x_eq]
    cases candidateStep ops sig msgHash pubKey ((sig.r + c.1 * scalarFieldN) % baseFieldP) c.2 with
    | some r => rfl
    | none => exact deriveLoop_eq_specLoop ops sig msgHash pubKey rest

theorem candidateStep_ok {P : Type} (ops : CurveOps P) (sig : Signature) (msgHash : Nat)
    (pubKey : WeierstrassPoint) (x parity : Nat) (out : PublicInputs)
    (hstep : candidateStep ops sig msgHash pubKey x parity = some (.ok out)) :
    ∃ rInv ecR,
      fsInv x = some rInv
      ∧ ops.pointFromX x parity = some ecR
      ∧ wEquals (ops.toW (ops.add (ops.mul (ops.mul ecR rInv) sig.s)
          (ops.mul ops.g (fsNeg (fsMul rInv msgHash))))) pubKey = true
      ∧ out = ⟨ops.toEdwards (ops.toW ecR),
               ops.toEdwards (ops.toW (ops.mul ecR rInv)),
               ops.toEdwards (ops.toW (ops.mul ops.g (fsNeg (fsMul rInv msgHash))))⟩ := by
  simp only [candidateStep] at hstep
  cases hinv : fsInv x with
  | none => simp [hinv] at hstep
  | some rInv =>
    simp only [hinv] at hstep
    cases hpt : ops.pointFromX x parity with
    | none => simp [hpt] at hstep
    | some ecR =>
      simp only [hpt] at hstep
      by_cases hw : wEquals (ops.toW (ops.add (ops.mul (ops.mul ecR rInv) sig.s)
          (ops.mul ops.g (fsNeg (fsMul rInv msgHash))))) pubKey = true
      · simp only [hw, if_true, Option.some.injEq, Except.ok.injEq] at hstep
        exact ⟨rInv, ecR, rfl, rfl, hw, hstep.symm⟩
      · rw [if_neg hw] at hstep
        simp at hstep

theorem deriveLoop_ok {P : Type} (ops : CurveOps P) (sig : Signature) (msgHash : Nat)
    (pubKey : WeierstrassPoint) :
    ∀ (l : List (Nat × Nat)) (out : PublicInputs),
      deriveLoop ops sig msgHash pubKey l = .ok out →
      ∃ c ∈ l, candidateStep ops sig msgHash pubKey
          (fbAdd sig.r (fbMul c.1 scalarFieldN)) c.2 = some (.ok out)
  | [], out, hc => by simp [deriveLoop] at hc
  | c :: rest, out, hc => by
    rw [deriveLoop] at hc
    cases hstep : candidateStep ops sig msgHash pubKey
        (fbAdd sig.r (fbMul c.1 scalarFieldN)) c.2 with
    | none =>
      simp only [hstep] at hc
      obtain ⟨c', hm', hs'⟩ := deriveLoop_ok ops sig msgHash pubKey rest out hc
      exact ⟨c', List.mem_cons_of_mem c hm', hs'⟩
    | some r =>
      simp only [hstep] at hc
      subst hc
      exact ⟨c, List.mem_cons_self c rest, hstep⟩

/-- C2: whenever the deriver returns, the returned points are the Edwards
conversions of the recovered candidate `R`, of `T = R_candidate · r⁻¹` and of
`U = G · (−r⁻¹·msgHash)` (with `r⁻¹` the order-field modular inverse of the
candidate x), and the Weierstrass forms satisfy `s·T + U == pubKey` under
exact coordinate equality. -/
theorem getPublicInputs_returns_checked_forms {P : Type} (ops : CurveOps P)
    (sig : Signature) (msgHash : Nat) (pubKey : WeierstrassPoint) (out : PublicInputs)
    (hret : getPublicInputsFromSignature ops sig msgHash pubKey = .ok out) :
    ∃ c ∈ (List.range cofactor).flatMap fun i => [(i, 0), (i, 1)],
      ∃ rInv ecR,
        fsInv (fbAdd sig.r (fbMul c.1 scalarFieldN)) = some rInv
        ∧ ops.pointFromX (fbAdd sig.r (fbMul c.1 scalarFieldN)) c.2 = some ecR
        ∧ wEquals (ops.toW (ops.add (ops.mul (ops.mul ecR rInv) sig.s)
            (ops.mul ops.g (fsNeg (fsMul rInv msgHash))))) pubKey = true
        ∧ out = ⟨ops.toEdwards (ops.toW ecR),
                 ops.toEdwards (ops.toW (ops.mul ecR rInv)),
                 ops.toEdwards (ops.toW (ops.mul ops.g (fsNeg (fsMul rInv msgHash))))⟩ := by
  obtain ⟨c, hmem, hstep⟩ := deriveLoop_ok ops sig msgHash pubKey _ out hret
  exact ⟨c, hmem, candidateStep_ok ops sig msgHash pubKey _ c.2 out hstep⟩

/-- Trivial curve capability over the unit type (every x recoverable, all
points collapsing to the origin); used only to evaluate witnesses. -/
def unitOps : CurveOps Unit where
  pointFromX _ _ := some ()
  mul _ _ := ()
  add _ _ := ()
  g := ()
  toW _ := ⟨0, 0⟩
  toEdwards _ := ⟨0, 0⟩

/-- Witness for C2: a concrete successful derivation. -/
theorem getPublicInputs_returns_checked_forms_witness :
    ∃ c ∈ (List.range cofactor).flatMap fun i => [(i, 0), (i, 1)],
      ∃ rInv ecR,
        fsInv (fbAdd (Signature.mk 1 1).r (fbMul c.1 scalarFieldN)) = some rInv
        ∧ unitOps.pointFromX (fbAdd (Signature.mk 1 1).r (fbMul c.1 scalarFieldN)) c.2
            = some ecR
        ∧ wEquals (unitOps.toW (unitOps.add (unitOps.mul (unitOps.mul ecR rInv)
            (Signature.mk 1 1).s) (unitOps.mul unitOps.g (fsNeg (fsMul rInv 1)))))
            ⟨0, 0⟩ = true
        ∧ (PublicInputs.mk ⟨0, 0⟩ ⟨0, 0⟩ ⟨0, 0⟩)
            = ⟨unitOps.toEdwards (unitOps.toW ecR),
               unitOps.toEdwards (unitOps.toW (unitOps.mul ecR rInv)),
               unitOps.toEdwards (unitOps.toW (unitOps.mul unitOps.g
                 (fsNeg (fsMul rInv 1))))⟩ :=
  getPublicInputs_returns_checked_forms unitOps ⟨1, 1⟩ 1 ⟨0, 0⟩ ⟨⟨0, 0⟩, ⟨0, 0⟩, ⟨0, 0⟩⟩ rfl

/-- C3: the deriver equals the spec-ordered enumeration — outer `i` ascending
0..7, parity 0 then 1, candidate x computed as `(r + i·n) mod p`, first match
wins — and identical calls return identical results. -/
theorem getPublicInputs_spec_order {P : Type} (ops : CurveOps P) (sig : Signature)
    (msgHash : Nat) (pubKey : WeierstrassPoint) :
    getPublicInputsFromSignature ops sig msgHash pubKey
      = deriveInputsSpecOrder ops sig msgHash pubKey
    ∧ getPublicInputsFromSignature ops sig msgHash pubKey
      = getPublicInputsFromSignature ops sig msgHash pubKey := by
  refine ⟨?_, rfl⟩
  have hlist : ((List.range cofactor).flatMap fun i => [(i, 0), (i, 1)])
      = [(0, 0), (0, 1), (1, 0), (1, 1), (2, 0), (2, 1), (3, 0), (3, 1),
         (4, 0), (4, 1), (5, 0), (5, 1), (6, 0), (6, 1), (7, 0), (7, 1)] := by decide
  rw [getPublicInputsFromSignature, deriveLoop_eq_specLoop, hlist, deriveInputsSpecOrder]

theorem deriveLoop_nvcf_iff {P : Type} (ops : CurveOps P) (sig : Signature) (msgHash : Nat)
    (pubKey : WeierstrassPoint) :
    ∀ l : List (Nat × Nat),
      (∀ c ∈ l, (fsInv (fbAdd sig.r (fbMul c.1 scalarFieldN))).isSome = true) →
      (deriveLoop ops sig msgHash pubKey l = .error .noValidCandidateFound
        ↔ ∀ c ∈ l, candidateMatches ops sig msgHash pubKey c = false)
  | [], _ => by simp [deriveLoop]
  | c :: rest, hinv => by
    have hch := hinv c (List.mem_cons_self c rest)
    obtain ⟨rInv, hrInv⟩ := Option.isSome_iff_exists.mp hch
    have ih := deriveLoop_nvcf_iff ops sig msgHash pubKey rest
      (fun c' hm => hinv c' (List.mem_cons_of_mem c hm))
    rw [deriveLoop]
    cases hpt : ops.pointFromX (fbAdd sig.r (fbMul c.1 scalarFieldN)) c.2 with
    | none =>
      have hstep : candidateStep ops sig msgHash pubKey
          (fbAdd sig.r (fbMul c.1 scalarFieldN)) c.2 = none := by
        simp [candidateStep, hrInv, hpt]
      have hmatch : candidateMatches ops sig msgHash pubKey c = false := by
        simp [candidateMatches, hrInv, hpt]
      simp only [hstep, List.forall_mem_cons, hmatch, true_and]
      exact ih
    | some ecR =>
      by_cases hw : wEquals (ops.toW (ops.add (ops.mul (ops.mul ecR rInv) sig.s)
          (ops.mul ops.g (fsNeg (fsMul rInv msgHash))))) pubKey = true
      · have hstep : candidateStep ops sig msgHash pubKey
            (fbAdd sig.r (fbMul c.1 scalarFieldN)) c.2
            = some (.ok ⟨ops.toEdwards (ops.toW ecR),
                ops.toEdwards (ops.toW (ops.mul ecR rInv)),
                ops.toEdwards (ops.toW (ops.mul ops.g (fsNeg (fsMul rInv msgHash))))⟩) := by
          simp [candidateStep, hrInv, hpt, hw]
        have hmatch : candidateMatches ops sig msgHash pubKey c = true := by
          simp only [candidateMatches, hrInv, hpt]
          exact hw
        simp [hstep, List.forall_mem_cons, hmatch]
      · have hstep : candidateStep ops sig msgHash pubKey
            (fbAdd sig.r (fbMul c.1 scalarFieldN)) c.2 = none := by
          simp [candidateStep, hrInv, hpt, hw]
        have hmatch : candidateMatches ops sig msgHash pubKey c = false := by
          simp only [candidateMatches, hrInv, hpt]
          exact Bool.not_eq_true _ ▸ (Bool.eq_false_iff.mpr hw)
        simp only [hstep, List.forall_mem_cons, hmatch, true_and]
        exact ih

/-- C4: as long as the order-field inversion is defined on every candidate,
the deriver fails with `NoValidCandidateFound` exactly when no candidate over
all `i ∈ [0, cofactor)` and both parities passes the verification check; a
candidate x with no curve point at the requested parity merely counts as a
non-match (the loop skips it; that recovery failure is never surfaced). -/
theorem getPublicInputs_nvcf_iff {P : Type} (ops : CurveOps P) (sig : Signature)
    (msgHash : Nat) (pubKey : WeierstrassPoint)
    (hinv : ∀ c ∈ (List.range cofactor).flatMap fun i => [(i, 0), (i, 1)],
        (fsInv (fbAdd sig.r (fbMul c.1 scalarFieldN))).isSome = true) :
    getPublicInputsFromSignature ops sig msgHash pubKey = .error .noValidCandidateFound
      ↔ ∀ c ∈ (List.range cofactor).flatMap fun i => [(i, 0), (i, 1)],
          candidateMatches ops sig msgHash pubKey c = false :=
  deriveLoop_nvcf_iff ops sig msgHash pubKey _ hinv

/-- Curve capability over the unit type on which no x-coordinate is ever
recoverable; used only to evaluate witnesses. -/
def noneOps : CurveOps Unit where
  pointFromX _ _ := none
  mul _ _ := ()
  add _ _ := ()
  g := ()
  toW _ := ⟨0, 0⟩
  toEdwards _ := ⟨0, 0⟩

/-- Witness for C4: with no candidate recoverable, the deriver fails with
`NoValidCandidateFound`, and the inversion hypothesis holds concretely. -/
theorem getPublicInputs_nvcf_iff_witness :
    (∀ c ∈ (List.range cofactor).flatMap fun i => [(i, 0), (i, 1)],
        (fsInv (fbAdd (Signature.mk 1 1).r (fbMul c.1 scalarFieldN))).isSome = true)
    ∧ (getPublicInputsFromSignature noneOps ⟨1, 1⟩ 1 ⟨0, 0⟩
          = .error .noValidCandidateFound
        ↔ ∀ c ∈ (List.range cofactor).flatMap fun i => [(i, 0), (i, 1)],
            candidateMatches noneOps ⟨1, 1⟩ 1 ⟨0, 0⟩ c = false) :=
  ⟨by decide, getPublicInputs_nvcf_iff noneOps ⟨1, 1⟩ 1 ⟨0, 0⟩ (by decide)⟩

/-- C9: a zero `sig.r` makes the order-field inversion fail on the very first
candidate, and that arithmetic error propagates unchanged to the caller as
`divisionByZero` — it is not caught by the candidate-skipping handler and not
converted into `NoValidCandidateFound`. -/
theorem getPublicInputs_zero_r_propagates {P : Type} (ops : CurveOps P)
    (msgHash : Nat) (pubKey : WeierstrassPoint) (s : Nat) :
    getPublicInputsFromSignature ops ⟨0, s⟩ msgHash pubKey = .error .divisionByZero := rfl

end BabyJubjubEcdsa
